import Mathlib

/-!
Verification of the chemml descriptor-generation core against its
natural-language specification.

The file embeds, in Lean 4:

* `XYZreader.__file_reader` and `XYZreader.read` from
  `cheml/initialization/initialization.py` (the only part of the claimed
  functionality whose Python source is present in the repository);
* the Coulomb-matrix builder (variants `UM`, `UT`, `E`, `SC`, `RC`), the
  bag-of-bonds builder and the batch driver.  Their Python source is not in
  the repository (only their unit tests are), so these definitions are
  modelled from the specification and checked against the concrete values
  the unit tests pin down.

Real-valued quantities are embedded over `ℝ` (the Python code computes with
floating point; the spec states all concrete values up to tolerance, which
is what the theorems prove).
-/

namespace ChemML

/-! ## Embedding of `XYZreader` (cheml/initialization/initialization.py)

A file is represented by its list of lines (file-system traversal and
pattern matching are out of scope per the spec).  Python runtime errors that
the reader can raise are reified in `PyErr`. -/

/-- Python exceptions that `XYZreader.__file_reader` can raise. -/
inductive PyErr where
  | attributeError
  | keyError
  | indexError
  | valueError
  deriving DecidableEq

/-- The `reader` parameter of `XYZreader`: `'auto'` or `'manual'`. -/
inductive ReaderKind where
  | auto
  | manual
  deriving DecidableEq

/-- An exact decimal number: `(m, d)` stands for `m / 10^d`.  Python floats
parsed from the short decimal literals of an XYZ file are represented
exactly by their literal value. -/
abbrev Dec : Type := ℤ × ℕ

/-- Value of a list of decimal digit characters, left to right. -/
def digitsVal (cs : List Char) : ℕ :=
  cs.foldl (fun n c => 10 * n + (c.toNat - 48)) 0

/-- Model of Python `float(s)` on the plain decimal forms that occur in XYZ
files: optional sign, then digits with an optional single decimal point
(`"12"`, `"-3.5"`, `".5"`, `"5."`).  Returns `none` where `float` raises
`ValueError`. -/
def parseFloat (s : String) : Option Dec :=
  let cs := s.toList
  let neg := cs.head? = some '-'
  let cs := if cs.head? = some '-' ∨ cs.head? = some '+' then cs.drop 1 else cs
  let ip := cs.takeWhile (·.isDigit)
  let rest := cs.dropWhile (·.isDigit)
  let signed : ℕ → ℤ := fun v => if neg then -(v : ℤ) else (v : ℤ)
  match rest with
  | [] => if ip.isEmpty then none else some (signed (digitsVal ip), 0)
  | '.' :: frac =>
      if frac.all (·.isDigit) ∧ ¬(ip.isEmpty ∧ frac.isEmpty) then
        some (signed (digitsVal ip * 10 ^ frac.length + digitsVal frac),
          frac.length)
      else none
  | _ => none

/-- Whitespace characters for the model of Python `str.strip`. -/
def isSpaceChar (c : Char) : Bool :=
  c = ' ' ∨ c = '\t' ∨ c = '\n' ∨ c = '\r'

/-- Model of Python `str.strip()` on a character list. -/
def trimChars (cs : List Char) : List Char :=
  ((cs.dropWhile isSpaceChar).reverse.dropWhile isSpaceChar).reverse

/-- Tokenization of one atom line: `atom.replace('\t',' ')`, `strip()`,
`split(' ')`, then dropping empty tokens. -/
def tokenize (line : String) : List String :=
  (((trimChars (line.toList.map fun c => if c = '\t' then ' ' else c)).splitOn
    ' ').map fun t => String.mk t).filter (· ≠ "")

/-- Python `toks[i]`: `IndexError` when out of range. -/
def getTok (toks : List String) (i : ℕ) : Except PyErr String :=
  match toks.get? i with
  | some t => .ok t
  | none => .error .indexError

/-- Python `float(toks[i])`: `IndexError` then `ValueError`. -/
def parseCoord (toks : List String) (i : ℕ) : Except PyErr Dec := do
  let t ← getTok toks i
  match parseFloat t with
  | some q => .ok q
  | none => .error .valueError

/-- One row `[self.Z[atom[0]], float(atom[1]), float(atom[2]), float(atom[3])]`
of the `'manual'` reader, with Python's left-to-right evaluation order of the
possible `KeyError` / `IndexError` / `ValueError`. -/
def parseAtomLine (Z : String → Option Dec) (line : String) :
    Except PyErr (List Dec) := do
  let toks := tokenize line
  let sym ← getTok toks 0
  let q ← match Z sym with
    | some q => pure q
    | none => Except.error PyErr.keyError
  let x ← parseCoord toks 1
  let y ← parseCoord toks 2
  let z ← parseCoord toks 3
  return [q, x, y, z]

/-- Embedding of `XYZreader.__file_reader` (initialization.py lines 161-181).

With `reader='auto'` the code does `mol = open(filename,'r').read()` (a
`str`; the `pybel` import that would parse it is commented out) and then
iterates `mol.atoms`.  A Python `str` has no attribute `atoms`, so this
branch raises `AttributeError` for every file content.

With `reader='manual'` the code returns `np.array([])` for an empty file and
otherwise parses `mol[skip.1 : len(mol) - skip.2]` line by line (the model
assumes `skip.2` does not exceed the line count, as with the default
`skip_lines=[2,0]`). -/
def fileReader (rd : ReaderKind) (Z : String → Option Dec) (skip : ℕ × ℕ)
    (lines : List String) : Except PyErr (List (List Dec)) :=
  match rd with
  | .auto => .error .attributeError
  | .manual =>
      if lines.length = 0 then .ok []
      else ((lines.take (lines.length - skip.2)).drop skip.1).mapM
        (parseAtomLine Z)

/-- Embedding of `XYZreader.read` (initialization.py lines 198-226) on an
already-located list of files, each given by its lines.  Returns the list of
parsed molecules together with the final value of `self.max_n_atoms`, which
starts at `1` and is updated with `max(max_nAtoms, len(mol))` for every
molecule in discovery order. -/
def xyzRead (rd : ReaderKind) (Z : String → Option Dec) (skip : ℕ × ℕ)
    (files : List (List String)) :
    Except PyErr (List (List (List Dec)) × ℕ) :=
  match files.mapM (fileReader rd Z skip) with
  | .error e => .error e
  | .ok mols => .ok (mols, mols.foldl (fun m mol => max m mol.length) 1)

instance {ε α : Type} [DecidableEq ε] [DecidableEq α] :
    DecidableEq (Except ε α) := fun a b =>
  match a, b with
  | .error e, .error f => decidable_of_iff (e = f) (by simp)
  | .error _, .ok _ => .isFalse (by simp)
  | .ok _, .error _ => .isFalse (by simp)
  | .ok a, .ok b => decidable_of_iff (a = b) (by simp)

/-- Modelled from the spec: the "maximum `n` observed across the batch" of
`MaxAtomsPolicy` — the maximum atom count over the molecules read (`0` for an
empty batch).  Stated from the spec's words, to be compared with what
`XYZreader.read` actually reports. -/
def specMaxObserved (mols : List (List (List Dec))) : ℕ :=
  (mols.map List.length).foldr max 0

/-- A tiny nuclear-charge lookup for concrete runs. -/
def zH : String → Option Dec := fun s => if s = "H" then some (1, 0) else none

/-- A well-formed single-atom XYZ file (2 header lines, then one atom). -/
def demoFile : List String := ["1", "comment", "H 0.0 0.0 0.0"]

/-- An XYZ file with a single line: after skipping `skip_lines=[2,0]` no atom
lines remain, so the `'manual'` reader returns an empty molecule. -/
def shortFile : List String := ["stub"]

theorem foldl_max_len (l : List (List (List Dec))) :
    ∀ a : ℕ, l.foldl (fun m mol => max m mol.length) a
      = max a ((l.map List.length).foldr max 0) := by
  induction l with
  | nil => intro a; simp
  | cons x xs ih =>
      intro a
      simp only [List.foldl_cons, List.map_cons, List.foldr_cons]
      rw [ih]
      exact (Nat.max_assoc a x.length _)

theorem foldr_max_all_zero (mols : List (List (List Dec)))
    (hall : ∀ m ∈ mols, List.length m = 0) : specMaxObserved mols = 0 := by
  unfold specMaxObserved
  induction mols with
  | nil => rfl
  | cons m ms ih =>
      simp only [List.map_cons, List.foldr_cons]
      rw [hall m (List.mem_cons_self m ms),
        ih fun x hx => hall x (List.mem_cons_of_mem _ hx)]
      rfl

theorem le_foldr_max (l : List ℕ) (x : ℕ) (hx : x ∈ l) : x ≤ l.foldr max 0 := by
  induction l with
  | nil => cases hx
  | cons y ys ih =>
      rcases List.mem_cons.mp hx with h | h
      · subst h; exact Nat.le_max_left _ _
      · exact le_trans (ih h) (Nat.le_max_right _ _)

theorem max_eq_of_ok {rd Z skip files mols mx}
    (h : xyzRead rd Z skip files = .ok (mols, mx)) :
    mx = max 1 (specMaxObserved mols) := by
  unfold xyzRead at h
  rcases hm : files.mapM (fileReader rd Z skip) with e | ms
  · rw [hm] at h; cases h
  · rw [hm] at h
    cases h
    exact foldl_max_len mols 1

/-- Claim C9: after every completed call of `XYZreader.read`, the reported
`max_n_atoms` is at least `1`: it starts at `1` and only grows by `max` with
molecule lengths, so a run over no files, or over empty molecules only,
reports `1` rather than `0`. -/
theorem C9_max_n_atoms_at_least_one (rd : ReaderKind) (Z : String → Option Dec)
    (skip : ℕ × ℕ) (files : List (List String))
    (mols : List (List (List Dec))) (mx : ℕ)
    (h : xyzRead rd Z skip files = .ok (mols, mx)) :
    1 ≤ mx ∧ ((∀ m ∈ mols, m.length = 0) → mx = 1) := by
  rw [max_eq_of_ok h]
  refine ⟨Nat.le_max_left _ _, fun hall => ?_⟩
  rw [foldr_max_all_zero mols hall]
  rfl

theorem C9_witness :
    1 ≤ 1 ∧ ((∀ m ∈ ([[]] : List (List (List Dec))), m.length = 0) → 1 = 1) :=
  C9_max_n_atoms_at_least_one .manual zH (2, 0) [shortFile] [[]] 1 (by decide)

/-- Claim C10: with `reader='auto'`, `XYZreader.__file_reader` reads the file
into a plain string and then accesses `.atoms` on it, which a `str` does not
have — so it raises for every file content, `read` raises as soon as at least
one file is read, and only `reader='manual'` can produce a molecule array
(shown on a concrete well-formed XYZ file). -/
theorem C10_auto_reader_always_fails :
    (∀ (Z : String → Option Dec) (skip : ℕ × ℕ) (lines : List String),
      fileReader .auto Z skip lines = .error .attributeError) ∧
    (∀ (Z : String → Option Dec) (skip : ℕ × ℕ) (f : List String)
      (fs : List (List String)),
      xyzRead .auto Z skip (f :: fs) = .error .attributeError) ∧
    xyzRead .manual zH (2, 0) [demoFile]
      = .ok ([[[(1, 0), (0, 1), (0, 1), (0, 1)]]], 1) := by
  refine ⟨fun _ _ _ => rfl, fun Z skip f fs => ?_, by decide⟩
  unfold xyzRead
  have : (f :: fs).mapM (fileReader .auto Z skip)
      = .error .attributeError := by
    simp only [List.mapM, List.mapM.loop, fileReader]
    rfl
  rw [this]

/-- Claim C7 fails as stated: on a file whose body is empty after the
skipped header lines, `read` reports `max_n_atoms = 1` although the maximum
atom count observed across the batch is `0`. -/
theorem C7_counterexample :
    xyzRead .manual zH (2, 0) [shortFile] = .ok ([[]], 1) ∧
    specMaxObserved [[]] = 0 ∧ (1 : ℕ) ≠ 0 :=
  ⟨by decide, by decide, by decide⟩

/-- Claim C7, amended: the `max_n_atoms` reported by `read` equals
`max 1 (maximum atom count observed across the batch)`; in particular it
equals the observed maximum whenever at least one molecule is non-empty, and
it is fixed when `read` returns, before any per-molecule transform can run. -/
theorem C7_max_n_atoms_amended (rd : ReaderKind) (Z : String → Option Dec)
    (skip : ℕ × ℕ) (files : List (List String))
    (mols : List (List (List Dec))) (mx : ℕ)
    (h : xyzRead rd Z skip files = .ok (mols, mx)) :
    mx = max 1 (specMaxObserved mols) ∧
    ((∃ m ∈ mols, 1 ≤ m.length) → mx = specMaxObserved mols) := by
  refine ⟨max_eq_of_ok h, fun ⟨m, hm, hlen⟩ => ?_⟩
  rw [max_eq_of_ok h]
  exact Nat.max_eq_right (le_trans hlen
    (le_foldr_max _ _ (List.mem_map.mpr ⟨m, hm, rfl⟩)))

theorem C7_witness :
    (1 : ℕ) = max 1 (specMaxObserved [[[(1, 0), (0, 1), (0, 1), (0, 1)]]]) ∧
    ((∃ m ∈ ([[[(1, 0), (0, 1), (0, 1), (0, 1)]]] : List (List (List Dec))),
      1 ≤ m.length) →
      (1 : ℕ) = specMaxObserved [[[(1, 0), (0, 1), (0, 1), (0, 1)]]]) :=
  C7_max_n_atoms_amended .manual zH (2, 0) [demoFile] _ 1 (by decide)

/-! ## The descriptor-generation core

The Python sources of `CoulombMatrix` and `BagofBonds` are not part of the
repository snapshot (only `tests/chem/test_CoulombMatrix.py` and
`tests/chem/test_BagofBonds.py` are), so the builders below are modelled
from the specification (spec.md sections 3, 4.1-4.4) and anchored on the
concrete values the unit tests assert. -/

/-- Modelled from the spec: a `GeometryRecord` — nuclear charges and 3-D
coordinates of the `n` atoms of one molecule (spec section 3).  Fields are
total functions on `ℕ`; indices `≥ n` are never meaningful.  The element
symbols (used only by the bag-of-bonds builder) are pre-resolved. -/
structure Geom where
  n : ℕ
  Z : ℕ → ℝ
  pos : ℕ → ℝ × ℝ × ℝ
  sym : ℕ → String

noncomputable section

/-- Modelled from the spec: the Pairwise Distance Engine — Euclidean distance
between atoms `i` and `j` (spec section 4.1). -/
def dist (g : Geom) (i j : ℕ) : ℝ :=
  Real.sqrt (((g.pos i).1 - (g.pos j).1) ^ 2
    + ((g.pos i).2.1 - (g.pos j).2.1) ^ 2
    + ((g.pos i).2.2 - (g.pos j).2.2) ^ 2)

/-- Modelled from the spec: one cell of the `CoulombMatrix` —
`0.5 * Z_i^2.4` on the diagonal, `Z_i * Z_j / distance(i,j)` off it
(spec section 3). -/
def cmEntry (g : Geom) (i j : ℕ) : ℝ :=
  if i = j then 0.5 * g.Z i ^ (2.4 : ℝ)
  else g.Z i * g.Z j / dist g i j

/-- Modelled from the spec: the true `n × n` Coulomb matrix embedded in the
top-left corner of a zero-filled `max_n_atoms × max_n_atoms` matrix
(spec section 4.2, padding policy).  Matrices are total functions on
`ℕ × ℕ`; consumers only read indices below `m`. -/
def padded (m : ℕ) (g : Geom) : ℕ → ℕ → ℝ := fun i j =>
  if i < g.n ∧ j < g.n then cmEntry g i j else 0

/-- Row-major flattening of the full `m × m` matrix (`UM` variant). -/
def flattenUM (m : ℕ) (A : ℕ → ℕ → ℝ) : List ℝ :=
  (List.range m).flatMap fun i => (List.range m).map (A i)

/-- Modelled from the spec: triangular flattening including the diagonal
(`UT` variant).  The unit test `test_UT` pins the traversal order to
row-major over the lower triangle (equivalently column-major over the upper
triangle; the matrix is symmetric, so the same cell values either way). -/
def lowTri (m : ℕ) (A : ℕ → ℕ → ℝ) : List ℝ :=
  (List.range m).flatMap fun i => (List.range (i + 1)).map (A i)

/-- L2 norm of row `i` of an `m × m` matrix. -/
def rowNorm (m : ℕ) (A : ℕ → ℕ → ℝ) (i : ℕ) : ℝ :=
  Real.sqrt (∑ j ∈ Finset.range m, A i j ^ 2)

/-- Modelled from the spec: the row order used by the `SC` variant — indices
`0..m-1` stably sorted by descending key (spec section 4.2: "stable sort,
preserves original relative order among ties"). -/
def scOrder (m : ℕ) (v : ℕ → ℝ) : List ℕ :=
  List.insertionSort (fun a b => v b ≤ v a) (List.range m)

/-- Apply a row/column order to both axes of a matrix. -/
def applyOrder (ord : List ℕ) (A : ℕ → ℕ → ℝ) : ℕ → ℕ → ℝ := fun i j =>
  A (ord.getD i 0) (ord.getD j 0)

/-- Modelled from the spec: the `SC` (Sorted Coulomb) variant — permute rows
and columns by descending row L2 norm, then flatten the triangle
(spec section 4.2). -/
def scRep (m : ℕ) (g : Geom) : List ℝ :=
  lowTri m (applyOrder (scOrder m (rowNorm m (padded m g))) (padded m g))

/-- View an `ℕ`-indexed matrix as a `Fin m` matrix. -/
def toMx (m : ℕ) (A : ℕ → ℕ → ℝ) : Matrix (Fin m) (Fin m) ℝ :=
  Matrix.of fun i j => A i.1 j.1

/-- Modelled from the spec: the `E` (Eigenspectrum) variant — the
eigenvalues of the padded matrix, with multiplicity (the roots of its
characteristic polynomial; the padded matrix is real symmetric, so there are
exactly `m` of them), sorted descending (spec section 4.2). -/
def eigsDesc (m : ℕ) (g : Geom) : List ℝ :=
  ((Matrix.charpoly (toMx m (padded m g))).roots.sort (· ≤ ·)).reverse

/-- One sample of the `RC` (Randomized Coulomb) variant: row norms perturbed
by additive noise, then sorted as in `SC` (spec section 4.2). -/
def rcStep (m : ℕ) (g : Geom) (noise : ℕ → ℝ) : List ℝ :=
  lowTri m (applyOrder
    (scOrder m fun i => rowNorm m (padded m g) i + noise i) (padded m g))

/-- Modelled from the spec: the `RC` variant — `n_permutations` noisy-sorted
triangular vectors concatenated in generation order; the random source is
explicit and injectable (spec sections 4.2 and 9). -/
def rcRep (m nPerm : ℕ) (noise : ℕ → ℕ → ℝ) (g : Geom) : List ℝ :=
  (List.range nPerm).flatMap fun t => rcStep m g (noise t)

/-- The five invariance policies of the Coulomb Matrix Builder. -/
inductive Variant where
  | UM | UT | E | SC | RC
  deriving DecidableEq

/-- Modelled from the spec: the per-molecule Coulomb Matrix Builder —
dispatch on the variant (spec section 4.2).  `noise` is the injectable
random source consumed only by `RC`. -/
def represent (v : Variant) (m nPerm : ℕ) (noise : ℕ → ℕ → ℝ) (g : Geom) :
    List ℝ :=
  match v with
  | .UM => flattenUM m (padded m g)
  | .UT => lowTri m (padded m g)
  | .E => eigsDesc m g
  | .SC => scRep m g
  | .RC => rcRep m nPerm noise g

/-- Reordering of the atom input order of a molecule by a permutation. -/
def permuteGeom (g : Geom) (σ : Equiv.Perm ℕ) : Geom :=
  ⟨g.n, fun k => g.Z (σ k), fun k => g.pos (σ k), fun k => g.sym (σ k)⟩

/-- The water molecule O,H,H of the unit tests. -/
def water : Geom where
  n := 3
  Z := fun k => if k = 0 then 8 else 1
  pos := fun k =>
    if k = 0 then (1.464, 0.707, 1.056)
    else if k = 1 then (0.878, 1.218, 0.498)
    else (2.319, 1.126, 0.952)
  sym := fun k => if k = 0 then "O" else "H"

end

/-! ## Symmetry of the Coulomb matrix (claim C5) and basic cell values -/

theorem dist_symm (g : Geom) (i j : ℕ) : dist g i j = dist g j i := by
  unfold dist
  congr 1
  ring

theorem cmEntry_symm (g : Geom) (i j : ℕ) : cmEntry g i j = cmEntry g j i := by
  by_cases h : i = j
  · subst h; rfl
  · rw [cmEntry, cmEntry, if_neg h, if_neg (Ne.symm h), dist_symm,
      mul_comm]

/-- Claim C5: for every geometry record the Coulomb matrix is symmetric,
both the true `n × n` matrix and its zero-padded `m × m` embedding. -/
theorem C5_coulomb_matrix_symmetric (g : Geom) (m i j : ℕ) :
    cmEntry g i j = cmEntry g j i ∧ padded m g i j = padded m g j i := by
  refine ⟨cmEntry_symm g i j, ?_⟩
  unfold padded
  by_cases h : i < g.n ∧ j < g.n
  · rw [if_pos h, if_pos ⟨h.2, h.1⟩, cmEntry_symm]
  · rw [if_neg h, if_neg fun hc => h ⟨hc.2, hc.1⟩]

/-! ## Numeric bounds shared by the concrete water-molecule checks -/

theorem rpow8_pow5 : ((8 : ℝ) ^ (2.4 : ℝ)) ^ (5 : ℕ) = 68719476736 := by
  rw [← Real.rpow_natCast ((8 : ℝ) ^ (2.4 : ℝ)) 5,
    ← Real.rpow_mul (by norm_num : (0 : ℝ) ≤ 8),
    show (2.4 : ℝ) * ((5 : ℕ) : ℝ) = ((12 : ℕ) : ℝ) by norm_num,
    Real.rpow_natCast]
  norm_num

theorem rpow8_bounds :
    (147.032 : ℝ) < (8 : ℝ) ^ (2.4 : ℝ) ∧ (8 : ℝ) ^ (2.4 : ℝ) < 147.0345 := by
  have hpos : (0 : ℝ) < (8 : ℝ) ^ (2.4 : ℝ) :=
    Real.rpow_pos_of_pos (by norm_num) _
  constructor
  · by_contra h
    push_neg at h
    have h5 := pow_le_pow_left₀ hpos.le h 5
    rw [rpow8_pow5] at h5
    norm_num at h5
  · by_contra h
    push_neg at h
    have h5 := pow_le_pow_left₀ (by norm_num : (0:ℝ) ≤ 147.0345) h 5
    rw [rpow8_pow5] at h5
    norm_num at h5

theorem sqrt_between {a lo hi : ℝ} (hlo : 0 ≤ lo) (hhi : 0 < hi)
    (h1 : lo ^ 2 < a) (h2 : a < hi ^ 2) :
    lo < Real.sqrt a ∧ Real.sqrt a < hi :=
  ⟨(Real.lt_sqrt hlo).mpr h1, (Real.sqrt_lt' hhi).mpr h2⟩

theorem water_cm_00 : padded 3 water 0 0 = 0.5 * (8 : ℝ) ^ (2.4 : ℝ) := by
  unfold padded cmEntry water
  norm_num

theorem water_cm_01 : padded 3 water 0 1 = 8 / Real.sqrt 0.915881 := by
  unfold padded cmEntry dist water
  norm_num

theorem water_cm_01_approx : |(8 : ℝ) / Real.sqrt 0.915881 - 8.359| < 0.001 := by
  obtain ⟨h1, h2⟩ := sqrt_between
    (by norm_num : (0:ℝ) ≤ 0.957) (by norm_num : (0:ℝ) < 0.95702)
    (by norm_num : (0.957:ℝ) ^ 2 < 0.915881)
    (by norm_num : (0.915881:ℝ) < 0.95702 ^ 2)
  have hpos : (0:ℝ) < Real.sqrt 0.915881 := lt_trans (by norm_num) h1
  have hu : (8:ℝ) / Real.sqrt 0.915881 < 8 / 0.957 :=
    div_lt_div_of_pos_left (by norm_num) (by norm_num) h1
  have hl : (8:ℝ) / 0.95702 < 8 / Real.sqrt 0.915881 :=
    div_lt_div_of_pos_left (by norm_num) hpos h2
  have e1 : (8:ℝ) / 0.957 < 8.3595 := by norm_num
  have e2 : (8.3592:ℝ) < 8 / 0.95702 := by norm_num
  rw [abs_lt]
  constructor <;> linarith

/-- Claim C1: the Coulomb matrix has `0.5 * Z_i^2.4` on the diagonal and
`Z_i * Z_j / distance(i,j)` off it; on the water molecule O,H,H the `UM`
variant with `max_n_atoms = 3` gives a 9-element vector whose first element
is `0.5 * 8^2.4 ≈ 73.5167` and whose O-H off-diagonal term is `≈ 8.359`. -/
theorem C1_cell_values_and_water_UM :
    (∀ (g : Geom) (i : ℕ), cmEntry g i i = 0.5 * g.Z i ^ (2.4 : ℝ)) ∧
    (∀ (g : Geom) (i j : ℕ), i ≠ j →
      cmEntry g i j = g.Z i * g.Z j / dist g i j) ∧
    (flattenUM 3 (padded 3 water)).length = 9 ∧
    (flattenUM 3 (padded 3 water)).getD 0 0 = 0.5 * (8 : ℝ) ^ (2.4 : ℝ) ∧
    |(flattenUM 3 (padded 3 water)).getD 0 0 - 73.5167| < 0.001 ∧
    |(flattenUM 3 (padded 3 water)).getD 1 0 - 8.359| < 0.001 := by
  have hlist : flattenUM 3 (padded 3 water)
      = [padded 3 water 0 0, padded 3 water 0 1, padded 3 water 0 2,
         padded 3 water 1 0, padded 3 water 1 1, padded 3 water 1 2,
         padded 3 water 2 0, padded 3 water 2 1, padded 3 water 2 2] := rfl
  refine ⟨fun g i => by rw [cmEntry, if_pos rfl],
    fun g i j hij => by rw [cmEntry, if_neg hij],
    by rw [hlist]; rfl, ?_, ?_, ?_⟩
  · rw [hlist]
    exact water_cm_00
  · rw [hlist]
    show |padded 3 water 0 0 - 73.5167| < 0.001
    rw [water_cm_00, abs_lt]
    obtain ⟨hb1, hb2⟩ := rpow8_bounds
    constructor <;> linarith
  · rw [hlist]
    show |padded 3 water 0 1 - 8.359| < 0.001
    rw [water_cm_01]
    exact water_cm_01_approx

theorem C1_witness :
    cmEntry water 0 1 = water.Z 0 * water.Z 1 / dist water 0 1 :=
  C1_cell_values_and_water_UM.2.1 water 0 1 (by norm_num)

/-! ## Output widths of the five variants (claim C2) -/

theorem length_flattenUM (m : ℕ) (A : ℕ → ℕ → ℝ) :
    (flattenUM m A).length = m ^ 2 := by
  unfold flattenUM
  rw [List.length_flatMap]
  have : List.map (List.length ∘ fun i => (List.range m).map (A i))
      (List.range m) = List.map (fun _ => m) (List.range m) := by
    simp [Function.comp_def]
  rw [this, List.map_const', List.sum_replicate, List.length_range,
    smul_eq_mul, sq]

theorem twice_sum_range_succ (m : ℕ) :
    2 * ((List.range m).map (fun i => i + 1)).sum = m * (m + 1) := by
  induction m with
  | zero => rfl
  | succ k ih =>
      rw [List.range_succ, List.map_append, List.sum_append]
      simp only [List.map_cons, List.map_nil, List.sum_cons, List.sum_nil]
      rw [Nat.add_zero, Nat.mul_add, ih]
      ring

theorem length_lowTri (m : ℕ) (A : ℕ → ℕ → ℝ) :
    (lowTri m A).length = m * (m + 1) / 2 := by
  unfold lowTri
  rw [List.length_flatMap]
  have h : List.map (List.length ∘ fun i => (List.range (i + 1)).map (A i))
      (List.range m) = (List.range m).map (fun i => i + 1) := by
    simp [Function.comp_def]
  rw [h]
  have := twice_sum_range_succ m
  omega

/-- Characteristic polynomials are invariant under conjugation by a matrix
with a right inverse. -/
theorem charpoly_conj {m : ℕ} (U D V : Matrix (Fin m) (Fin m) ℝ)
    (hUV : U * V = 1) : (U * D * V).charpoly = D.charpoly := by
  set Cm := (Polynomial.C : ℝ →+* Polynomial ℝ).mapMatrix
    (m := Fin m) with hCm
  have hUV' : Cm U * Cm V = 1 := by rw [← map_mul, hUV, map_one]
  have hsc : Cm U * Matrix.scalar (Fin m) (Polynomial.X : Polynomial ℝ)
      = Matrix.scalar (Fin m) Polynomial.X * Cm U :=
    ((Matrix.scalar_commute (Polynomial.X : Polynomial ℝ)
      (fun r' => mul_comm _ r') (Cm U))).symm
  have hcm : Matrix.charmatrix (U * D * V)
      = Cm U * Matrix.charmatrix D * Cm V := by
    unfold Matrix.charmatrix
    rw [← hCm, map_mul, map_mul, Matrix.mul_sub, Matrix.sub_mul]
    congr 1
    rw [hsc, Matrix.mul_assoc, hUV', Matrix.mul_one]
  unfold Matrix.charpoly
  rw [hcm, Matrix.det_mul, Matrix.det_mul, mul_right_comm,
    ← Matrix.det_mul, hUV', Matrix.det_one, one_mul]

theorem charpoly_diagonal {m : ℕ} (d : Fin m → ℝ) :
    (Matrix.diagonal d).charpoly
      = (Multiset.map (fun a => Polynomial.X - Polynomial.C a)
          (Finset.univ.val.map d)).prod := by
  unfold Matrix.charpoly
  have h : Matrix.charmatrix (Matrix.diagonal d)
      = Matrix.diagonal fun i => Polynomial.X - Polynomial.C (d i) := by
    ext i j
    by_cases hij : i = j
    · subst hij
      rw [Matrix.charmatrix_apply_eq, Matrix.diagonal_apply_eq,
        Matrix.diagonal_apply_eq]
    · rw [Matrix.charmatrix_apply_ne _ _ _ hij,
        Matrix.diagonal_apply_ne _ hij, Matrix.diagonal_apply_ne _ hij,
        map_zero, neg_zero]
  rw [h, Matrix.det_diagonal, Finset.prod_eq_multiset_prod,
    Multiset.map_map]
  rfl

/-- The roots of the characteristic polynomial of a real symmetric matrix
are its eigenvalues, with multiplicity. -/
theorem roots_charpoly_hermitian {m : ℕ} (A : Matrix (Fin m) (Fin m) ℝ)
    (hA : A.IsHermitian) :
    A.charpoly.roots = Finset.univ.val.map hA.eigenvalues := by
  have hsp := hA.spectral_theorem
  have hUV : (hA.eigenvectorUnitary : Matrix (Fin m) (Fin m) ℝ)
      * star (hA.eigenvectorUnitary : Matrix (Fin m) (Fin m) ℝ) = 1 :=
    Matrix.mem_unitaryGroup_iff.mp hA.eigenvectorUnitary.prop
  have hD : Matrix.diagonal (RCLike.ofReal ∘ hA.eigenvalues)
      = Matrix.diagonal hA.eigenvalues := by
    rw [RCLike.ofReal_real_eq_id, Function.id_comp]
  calc A.charpoly.roots
      = ((hA.eigenvectorUnitary : Matrix (Fin m) (Fin m) ℝ)
          * Matrix.diagonal hA.eigenvalues
          * star (hA.eigenvectorUnitary : Matrix (Fin m) (Fin m) ℝ)).charpoly.roots := by
        rw [← hD]
        exact congrArg (fun M => (Matrix.charpoly M).roots) hsp
    _ = (Matrix.diagonal hA.eigenvalues).charpoly.roots := by
        rw [charpoly_conj _ _ _ hUV]
    _ = Finset.univ.val.map hA.eigenvalues := by
        rw [charpoly_diagonal]
        exact Polynomial.roots_multiset_prod_X_sub_C _

theorem padded_symm (m : ℕ) (g : Geom) (i j : ℕ) :
    padded m g i j = padded m g j i := by
  unfold padded
  by_cases h : i < g.n ∧ j < g.n
  · rw [if_pos h, if_pos ⟨h.2, h.1⟩, cmEntry_symm]
  · rw [if_neg h, if_neg fun hc => h ⟨hc.2, hc.1⟩]

theorem padded_isHermitian (m : ℕ) (g : Geom) :
    (toMx m (padded m g)).IsHermitian := by
  ext i j
  rw [Matrix.conjTranspose_apply, star_trivial]
  exact padded_symm m g j.1 i.1

theorem length_eigsDesc (m : ℕ) (g : Geom) : (eigsDesc m g).length = m := by
  unfold eigsDesc
  rw [List.length_reverse, Multiset.length_sort,
    roots_charpoly_hermitian _ (padded_isHermitian m g), Multiset.card_map]
  simp

/-- Claim C2: the output width of `represent` is `m²` for `UM`,
`m(m+1)/2` for `UT` and `SC`, `m` for `E` and `nPerm * m(m+1)/2` for `RC`,
where `m = max_n_atoms`. -/
theorem C2_output_widths (m nPerm : ℕ) (noise : ℕ → ℕ → ℝ)
    (g : Geom) :
    (represent .UM m nPerm noise g).length = m ^ 2 ∧
    (represent .UT m nPerm noise g).length = m * (m + 1) / 2 ∧
    (represent .SC m nPerm noise g).length = m * (m + 1) / 2 ∧
    (represent .E m nPerm noise g).length = m ∧
    (represent .RC m nPerm noise g).length = nPerm * (m * (m + 1) / 2) := by
  refine ⟨length_flattenUM m _, length_lowTri m _, length_lowTri m _,
    length_eigsDesc m g, ?_⟩
  show (rcRep m nPerm noise g).length = nPerm * (m * (m + 1) / 2)
  unfold rcRep rcStep
  rw [List.length_flatMap]
  have h : List.map (List.length ∘ fun t => lowTri m
      (applyOrder (scOrder m fun i => rowNorm m (padded m g) i + noise t i)
        (padded m g))) (List.range nPerm)
      = List.map (fun _ => m * (m + 1) / 2) (List.range nPerm) := by
    simp only [List.map_inj_left, Function.comp_apply]
    exact fun t _ => length_lowTri m _
  rw [h, List.map_const', List.sum_replicate, List.length_range,
    smul_eq_mul]

/-! ## Batch-driver input validation (claim C6) and determinism (claim C8) -/

/-- A Python object handed to `represent`: either a molecule with a resolved
geometry, or anything else (such as the string `'fake'` of the unit test). -/
inductive PyObj where
  | mol (g : Geom)
  | notMol

/-- Modelled from the spec: the shapes an argument of `represent` can take —
a single object, a flat (1-dimensional) collection, or a multi-dimensional
array of molecule containers (spec section 4.4). -/
inductive CMInput where
  | single (o : PyObj)
  | array1 (l : List PyObj)
  | arrayN (rows : List (List PyObj))

/-- The two input-validation errors of the Coulomb Matrix Builder. -/
inductive RepErr where
  | invalidInput
  | invalidShape
  deriving DecidableEq

/-- Modelled from the spec: the per-item type check of the batch driver. -/
def checkMol : PyObj → Except RepErr Geom
  | .mol g => .ok g
  | .notMol => .error .invalidInput

/-- Modelled from the spec: the Batch Driver — validate the input shape and
each item's type, then run the per-molecule builder in input order
(spec sections 4.2 Error conditions and 4.4). -/
noncomputable def representDriver (v : Variant) (m nPerm : ℕ) (noise : ℕ → ℕ → ℝ) :
    CMInput → Except RepErr (List (List ℝ))
  | .single o => (checkMol o).map fun g => [represent v m nPerm noise g]
  | .array1 l => (l.mapM checkMol).map (List.map (represent v m nPerm noise))
  | .arrayN _ => .error .invalidShape

theorem mapM_checkMol_error (l : List PyObj) (h : PyObj.notMol ∈ l) :
    l.mapM checkMol = .error .invalidInput := by
  induction l with
  | nil => cases h
  | cons a l ih =>
      cases a with
      | notMol => rfl
      | mol g =>
          have hl : PyObj.notMol ∈ l := by
            rcases List.mem_cons.mp h with hc | hc
            · cases hc
            · exact hc
          rw [List.mapM_cons, ih hl]
          rfl

/-- Claim C6: `represent` on an input that is neither a molecule nor a flat
collection of molecules fails with `InvalidInput`; a multi-dimensional array
of molecule containers fails with the distinct `InvalidShape`; in both cases
the call raises instead of returning a value. -/
theorem C6_input_validation (v : Variant) (m nPerm : ℕ)
    (noise : ℕ → ℕ → ℝ) :
    representDriver v m nPerm noise (.single .notMol)
      = .error .invalidInput ∧
    (∀ l : List PyObj, PyObj.notMol ∈ l →
      representDriver v m nPerm noise (.array1 l) = .error .invalidInput) ∧
    (∀ rows, representDriver v m nPerm noise (.arrayN rows)
      = .error .invalidShape) ∧
    RepErr.invalidInput ≠ RepErr.invalidShape ∧
    (∀ inp e, representDriver v m nPerm noise inp = .error e →
      ∀ out, representDriver v m nPerm noise inp ≠ .ok out) := by
  refine ⟨rfl, fun l hl => ?_, fun _ => rfl, by decide, ?_⟩
  · show ((l.mapM checkMol).map (List.map (represent v m nPerm noise)))
      = .error .invalidInput
    rw [mapM_checkMol_error l hl]
    rfl
  · intro inp e he out hok
    rw [he] at hok
    cases hok

theorem C6_witness :
    representDriver .UM 3 1 (fun _ _ => 0) (.array1 [.notMol])
      = .error .invalidInput :=
  (C6_input_validation .UM 3 1 (fun _ _ => 0)).2.1 [.notMol]
    (List.mem_cons_self _ _)

/-- Claim C8: for a fixed configuration the builder is a pure function of
the immutable geometry: with a non-`RC` variant its output does not depend
on the injected random source at all, so two runs agree bit for bit; and the
`RC` variant is a function of the noise stream drawn from the seed, so two
runs over the same seeded stream agree as well. -/
theorem C8_two_run_determinism (v : Variant) (m nPerm : ℕ) (g : Geom)
    (noise1 noise2 : ℕ → ℕ → ℝ) (hv : v ≠ .RC) :
    represent v m nPerm noise1 g = represent v m nPerm noise2 g ∧
    (∀ seedNoise : ℕ → ℕ → ℝ,
      represent .RC m nPerm seedNoise g = represent .RC m nPerm seedNoise g)
    := by
  refine ⟨?_, fun _ => rfl⟩
  cases v with
  | UM => rfl
  | UT => rfl
  | E => rfl
  | SC => rfl
  | RC => exact absurd rfl hv

theorem C8_witness :
    represent .UM 3 1 (fun _ _ => 0) water
      = represent .UM 3 1 (fun _ _ => 1) water ∧
    (∀ seedNoise : ℕ → ℕ → ℝ,
      represent .RC 3 1 seedNoise water = represent .RC 3 1 seedNoise water)
    :=
  C8_two_run_determinism .UM 3 1 water _ _ (by decide)

/-! ## Bag-of-Bonds builder (claim C3)

Buckets are keyed by the unordered pair of element symbols (off-diagonal
interactions) or the element symbol alone (diagonal self-energies); the
canonical concatenation order is ascending lexicographic on
`(smaller symbol, larger symbol, diagonal?)`, which reproduces the
concatenation the unit test `test_h2o` asserts. -/

/-- A bucket key: `(smaller symbol, larger symbol, is-diagonal flag)`; a
diagonal (self-energy) bucket for element `s` has key `(s, s, true)`. -/
abbrev BKey : Type := String × String × Bool

theorem str_eq_of_data {a b : String} (h : a.data = b.data) : a = b := by
  cases a
  cases b
  exact congrArg String.mk h

/-- The canonical total order on bucket keys: lexicographic on the two
symbols (compared as character lists), with an off-diagonal (pair) bucket
ordered before the diagonal bucket of the same symbol pair. -/
def keyLE (a b : BKey) : Prop :=
  a.1.data < b.1.data ∨ (a.1 = b.1 ∧ (a.2.1.data < b.2.1.data ∨
    (a.2.1 = b.2.1 ∧ (a.2.2 = true → b.2.2 = true))))

instance : DecidableRel keyLE := fun a b => by
  unfold keyLE
  infer_instance

theorem keyLE_total : ∀ a b : BKey, keyLE a b ∨ keyLE b a := by
  intro a b
  unfold keyLE
  rcases lt_trichotomy a.1.data b.1.data with h | h | h
  · exact Or.inl (Or.inl h)
  · have he := str_eq_of_data h
    rcases lt_trichotomy a.2.1.data b.2.1.data with h2 | h2 | h2
    · exact Or.inl (Or.inr ⟨he, Or.inl h2⟩)
    · have he2 := str_eq_of_data h2
      by_cases h4 : b.2.2 = true
      · exact Or.inl (Or.inr ⟨he, Or.inr ⟨he2, fun _ => h4⟩⟩)
      · refine Or.inr (Or.inr ⟨he.symm, Or.inr ⟨he2.symm, fun hc => ?_⟩⟩)
        exact absurd hc h4
    · exact Or.inr (Or.inr ⟨he.symm, Or.inl h2⟩)
  · exact Or.inr (Or.inl h)

theorem keyLE_trans : ∀ a b c : BKey, keyLE a b → keyLE b c → keyLE a c := by
  intro a b c hab hbc
  unfold keyLE at hab hbc ⊢
  rcases hab with h1 | ⟨he1, h1⟩
  · rcases hbc with h2 | ⟨he2, _⟩
    · exact Or.inl (lt_trans h1 h2)
    · exact Or.inl (he2 ▸ h1)
  · rcases hbc with h2 | ⟨he2, h2⟩
    · exact Or.inl (he1 ▸ h2)
    · refine Or.inr ⟨he1.trans he2, ?_⟩
      rcases h1 with h1 | ⟨hf1, h1⟩
      · rcases h2 with h2 | ⟨hf2, _⟩
        · exact Or.inl (lt_trans h1 h2)
        · exact Or.inl (hf2 ▸ h1)
      · rcases h2 with h2 | ⟨hf2, h2⟩
        · exact Or.inl (hf1 ▸ h2)
        · exact Or.inr ⟨hf1.trans hf2, fun hc => h2 (h1 hc)⟩

/-- The order-independent key of the off-diagonal pair `(i, j)`:
`(A,B) ≡ (B,A)` (spec section 4.3, step 3). -/
def pairKey (g : Geom) (i j : ℕ) : BKey :=
  if (g.sym j).data < (g.sym i).data then (g.sym j, g.sym i, false)
  else (g.sym i, g.sym j, false)

/-- All bucket keys one molecule contributes: one diagonal key per atom and
one pair key per unordered pair of distinct atoms. -/
def geomKeys (g : Geom) : List BKey :=
  ((List.range g.n).map fun i => (g.sym i, g.sym i, true))
    ++ ((List.range g.n).flatMap fun i =>
      ((List.range g.n).filter fun j => i < j).map fun j => pairKey g i j)

/-- Modelled from the spec: the canonical bucket order of the batch — all
keys observed across the batch, deduplicated, in canonical order
(spec section 4.3, step 6). -/
def bobKeys (batch : List Geom) : List BKey :=
  List.insertionSort keyLE (batch.flatMap geomKeys).dedup

noncomputable section

/-- Modelled from the spec: the keyed interaction values of one molecule —
for each atom its diagonal self-energy scaled by `const` under its element
key, and for each unordered pair of distinct atoms the off-diagonal Coulomb
interaction under the pair key (spec section 4.3, steps 1-3). -/
def bobEntries (c : ℝ) (g : Geom) : List (BKey × ℝ) :=
  ((List.range g.n).map fun i => (((g.sym i, g.sym i, true) : BKey),
      c * cmEntry g i i))
    ++ ((List.range g.n).flatMap fun i =>
      ((List.range g.n).filter fun j => i < j).map fun j =>
        (pairKey g i j, cmEntry g i j))

/-- Modelled from the spec: one bucket — the values of one key, sorted
descending (spec section 4.3, step 4). -/
def bucket (c : ℝ) (g : Geom) (k : BKey) : List ℝ :=
  List.insertionSort (fun a b : ℝ => b ≤ a)
    (((bobEntries c g).filter fun e => e.1 = k).map Prod.snd)

/-- Modelled from the spec: the batch-wide maximum occupancy of one key
(spec section 4.3, step 5). -/
def capacity (c : ℝ) (batch : List Geom) (k : BKey) : ℕ :=
  (batch.map fun g => (bucket c g k).length).foldr max 0

/-- Zero-padding of a bucket to its batch-wide capacity. -/
def padZeros (l : List ℝ) (len : ℕ) : List ℝ :=
  l ++ List.replicate (len - l.length) 0

/-- Modelled from the spec: the Bag-of-Bonds feature vector of one molecule
of a batch — every bucket padded to the batch-wide maximum length of its
key, concatenated in the canonical key order (spec section 4.3, step 6). -/
def bobRep (c : ℝ) (batch : List Geom) (g : Geom) : List ℝ :=
  (bobKeys batch).flatMap fun k => padZeros (bucket c g k) (capacity c batch k)

end

theorem bucket_sorted (c : ℝ) (g : Geom) (k : BKey) :
    List.Sorted (fun a b : ℝ => b ≤ a) (bucket c g k) := by
  haveI : IsTotal ℝ fun a b : ℝ => b ≤ a := ⟨fun a b => le_total b a⟩
  haveI : IsTrans ℝ fun a b : ℝ => b ≤ a :=
    ⟨fun a b cc h1 h2 => le_trans h2 h1⟩
  exact List.sorted_insertionSort _ _

theorem bobKeys_sorted (batch : List Geom) :
    List.Sorted keyLE (bobKeys batch) := by
  haveI : IsTotal BKey keyLE := ⟨keyLE_total⟩
  haveI : IsTrans BKey keyLE := ⟨keyLE_trans⟩
  exact List.sorted_insertionSort _ _

theorem padded_bucket_length (c : ℝ) (batch : List Geom) (g : Geom)
    (k : BKey) (hg : g ∈ batch) :
    (padZeros (bucket c g k) (capacity c batch k)).length
      = capacity c batch k := by
  have hle : (bucket c g k).length ≤ capacity c batch k :=
    le_foldr_max _ _ (List.mem_map.mpr ⟨g, hg, rfl⟩)
  rw [padZeros, List.length_append, List.length_replicate]
  omega

/-! ## Concrete bag-of-bonds run on the water molecule -/

theorem water_e00 : cmEntry water 0 0 = 0.5 * (8 : ℝ) ^ (2.4 : ℝ) := by
  unfold cmEntry water
  norm_num

theorem water_e11 : cmEntry water 1 1 = 0.5 := by
  unfold cmEntry water
  norm_num [Real.one_rpow]

theorem water_e22 : cmEntry water 2 2 = 0.5 := by
  unfold cmEntry water
  norm_num [Real.one_rpow]

theorem water_e01 : cmEntry water 0 1 = 8 / Real.sqrt 0.915881 := by
  unfold cmEntry dist water
  norm_num

theorem water_e02 : cmEntry water 0 2 = 8 / Real.sqrt 0.917402 := by
  unfold cmEntry dist water
  norm_num

theorem water_e12 : cmEntry water 1 2 = 1 / Real.sqrt 2.291061 := by
  unfold cmEntry dist water
  norm_num

theorem water_e01_bounds :
    (8.3592 : ℝ) < 8 / Real.sqrt 0.915881
      ∧ (8 : ℝ) / Real.sqrt 0.915881 < 8.3595 := by
  obtain ⟨h1, h2⟩ := sqrt_between
    (by norm_num : (0:ℝ) ≤ 0.957) (by norm_num : (0:ℝ) < 0.95702)
    (by norm_num : (0.957:ℝ) ^ 2 < 0.915881)
    (by norm_num : (0.915881:ℝ) < 0.95702 ^ 2)
  have hpos : (0:ℝ) < Real.sqrt 0.915881 := lt_trans (by norm_num) h1
  have hu : (8:ℝ) / Real.sqrt 0.915881 < 8 / 0.957 :=
    div_lt_div_of_pos_left (by norm_num) (by norm_num) h1
  have hl : (8:ℝ) / 0.95702 < 8 / Real.sqrt 0.915881 :=
    div_lt_div_of_pos_left (by norm_num) hpos h2
  have e1 : (8:ℝ) / 0.957 < 8.3595 := by norm_num
  have e2 : (8.3592:ℝ) < 8 / 0.95702 := by norm_num
  constructor <;> linarith

theorem water_e02_bounds :
    (8.3522 : ℝ) < 8 / Real.sqrt 0.917402
      ∧ (8 : ℝ) / Real.sqrt 0.917402 < 8.3525 := by
  obtain ⟨h1, h2⟩ := sqrt_between
    (by norm_num : (0:ℝ) ≤ 0.9578) (by norm_num : (0:ℝ) < 0.95782)
    (by norm_num : (0.9578:ℝ) ^ 2 < 0.917402)
    (by norm_num : (0.917402:ℝ) < 0.95782 ^ 2)
  have hpos : (0:ℝ) < Real.sqrt 0.917402 := lt_trans (by norm_num) h1
  have hu : (8:ℝ) / Real.sqrt 0.917402 < 8 / 0.9578 :=
    div_lt_div_of_pos_left (by norm_num) (by norm_num) h1
  have hl : (8:ℝ) / 0.95782 < 8 / Real.sqrt 0.917402 :=
    div_lt_div_of_pos_left (by norm_num) hpos h2
  have e1 : (8:ℝ) / 0.9578 < 8.3525 := by norm_num
  have e2 : (8.3522:ℝ) < 8 / 0.95782 := by norm_num
  constructor <;> linarith

theorem water_e12_bounds :
    (0.66066 : ℝ) < 1 / Real.sqrt 2.291061
      ∧ (1 : ℝ) / Real.sqrt 2.291061 < 0.66068 := by
  obtain ⟨h1, h2⟩ := sqrt_between
    (by norm_num : (0:ℝ) ≤ 1.5136) (by norm_num : (0:ℝ) < 1.51363)
    (by norm_num : (1.5136:ℝ) ^ 2 < 2.291061)
    (by norm_num : (2.291061:ℝ) < 1.51363 ^ 2)
  have hpos : (0:ℝ) < Real.sqrt 2.291061 := lt_trans (by norm_num) h1
  have hu : (1:ℝ) / Real.sqrt 2.291061 < 1 / 1.5136 :=
    div_lt_div_of_pos_left (by norm_num) (by norm_num) h1
  have hl : (1:ℝ) / 1.51363 < 1 / Real.sqrt 2.291061 :=
    div_lt_div_of_pos_left (by norm_num) hpos h2
  have e1 : (1:ℝ) / 1.5136 < 0.66068 := by norm_num
  have e2 : (0.66066:ℝ) < 1 / 1.51363 := by norm_num
  constructor <;> linarith

theorem water_bucket_HHf :
    bucket 1 water ("H", "H", false) = [cmEntry water 1 2] := by
  rw [bucket,
    show ((bobEntries 1 water).filter fun e =>
        e.1 = (("H", "H", false) : BKey)).map Prod.snd
      = [cmEntry water 1 2] from rfl]
  rfl

theorem water_bucket_OO :
    bucket 1 water ("O", "O", true) = [1 * cmEntry water 0 0] := by
  rw [bucket,
    show ((bobEntries 1 water).filter fun e =>
        e.1 = (("O", "O", true) : BKey)).map Prod.snd
      = [1 * cmEntry water 0 0] from rfl]
  rfl

theorem water_bucket_HHt :
    bucket 1 water ("H", "H", true)
      = [1 * cmEntry water 1 1, 1 * cmEntry water 2 2] := by
  rw [bucket,
    show ((bobEntries 1 water).filter fun e =>
        e.1 = (("H", "H", true) : BKey)).map Prod.snd
      = [1 * cmEntry water 1 1, 1 * cmEntry water 2 2] from rfl]
  simp only [List.insertionSort, List.orderedInsert_nil]
  rw [List.orderedInsert_of_le _ _ (by rw [water_e11, water_e22])]

theorem water_bucket_HO :
    bucket 1 water ("H", "O", false)
      = [cmEntry water 0 1, cmEntry water 0 2] := by
  rw [bucket,
    show ((bobEntries 1 water).filter fun e =>
        e.1 = (("H", "O", false) : BKey)).map Prod.snd
      = [cmEntry water 0 1, cmEntry water 0 2] from rfl]
  simp only [List.insertionSort, List.orderedInsert_nil]
  refine List.orderedInsert_of_le _ _ ?_
  rw [water_e01, water_e02]
  have h1 : Real.sqrt 0.915881 ≤ Real.sqrt 0.917402 :=
    Real.sqrt_le_sqrt (by norm_num)
  have h2 : (0:ℝ) < Real.sqrt 0.915881 :=
    Real.sqrt_pos.mpr (by norm_num)
  exact div_le_div_of_nonneg_left (by norm_num) h2 h1

theorem capacity_single (c : ℝ) (g : Geom) (k : BKey) :
    capacity c [g] k = (bucket c g k).length := by
  simp [capacity]

theorem padZeros_exact (l : List ℝ) : padZeros l l.length = l := by
  simp [padZeros]

theorem water_bob :
    bobRep 1 [water] water
      = [cmEntry water 1 2, 1 * cmEntry water 1 1, 1 * cmEntry water 2 2,
         cmEntry water 0 1, cmEntry water 0 2, 1 * cmEntry water 0 0] := by
  rw [bobRep,
    show bobKeys [water] = [("H", "H", false), ("H", "H", true),
      ("H", "O", false), ("O", "O", true)] from by decide]
  simp only [List.flatMap_cons, List.flatMap_nil, List.append_nil]
  rw [capacity_single, capacity_single, capacity_single, capacity_single,
    padZeros_exact, padZeros_exact, padZeros_exact, padZeros_exact,
    water_bucket_HHf, water_bucket_HHt, water_bucket_HO, water_bucket_OO]
  rfl

/-- Claim C3: every bag-of-bonds bucket is sorted descending, buckets are
zero-padded to their batch-wide maximum length, buckets are concatenated in
a fixed canonical key order, and on the water molecule O,H,H with
`const = 1.0` the result is a 6-element vector matching
`[0.6607, 0.5, 0.5, 8.3593, 8.3524, 73.5167]`. -/
theorem C3_bag_of_bonds :
    (∀ (c : ℝ) (g : Geom) (k : BKey),
      List.Sorted (fun a b : ℝ => b ≤ a) (bucket c g k)) ∧
    (∀ (c : ℝ) (batch : List Geom) (g : Geom) (k : BKey), g ∈ batch →
      (padZeros (bucket c g k) (capacity c batch k)).length
        = capacity c batch k) ∧
    (∀ batch : List Geom, List.Sorted keyLE (bobKeys batch)) ∧
    (bobRep 1 [water] water).length = 6 ∧
    |(bobRep 1 [water] water).getD 0 0 - 0.6607| < 0.001 ∧
    |(bobRep 1 [water] water).getD 1 0 - 0.5| < 0.001 ∧
    |(bobRep 1 [water] water).getD 2 0 - 0.5| < 0.001 ∧
    |(bobRep 1 [water] water).getD 3 0 - 8.3593| < 0.001 ∧
    |(bobRep 1 [water] water).getD 4 0 - 8.3524| < 0.001 ∧
    |(bobRep 1 [water] water).getD 5 0 - 73.5167| < 0.001 := by
  refine ⟨bucket_sorted, fun c batch g k hg => padded_bucket_length c batch g k hg,
    bobKeys_sorted, ?_, ?_, ?_, ?_, ?_, ?_, ?_⟩
  · rw [water_bob]
    rfl
  · rw [water_bob]
    show |cmEntry water 1 2 - 0.6607| < 0.001
    rw [water_e12, abs_lt]
    obtain ⟨b1, b2⟩ := water_e12_bounds
    constructor <;> linarith
  · rw [water_bob]
    show |1 * cmEntry water 1 1 - 0.5| < 0.001
    rw [water_e11]
    norm_num
  · rw [water_bob]
    show |1 * cmEntry water 2 2 - 0.5| < 0.001
    rw [water_e22]
    norm_num
  · rw [water_bob]
    show |cmEntry water 0 1 - 8.3593| < 0.001
    rw [water_e01, abs_lt]
    obtain ⟨b1, b2⟩ := water_e01_bounds
    constructor <;> linarith
  · rw [water_bob]
    show |cmEntry water 0 2 - 8.3524| < 0.001
    rw [water_e02, abs_lt]
    obtain ⟨b1, b2⟩ := water_e02_bounds
    constructor <;> linarith
  · rw [water_bob]
    show |1 * cmEntry water 0 0 - 73.5167| < 0.001
    rw [water_e00, abs_lt]
    obtain ⟨b1, b2⟩ := rpow8_bounds
    constructor <;> linarith

theorem C3_witness :
    (padZeros (bucket 1 water ("H", "O", false))
      (capacity 1 [water] ("H", "O", false))).length
      = capacity 1 [water] ("H", "O", false) :=
  C3_bag_of_bonds.2.1 1 [water] water ("H", "O", false)
    (List.mem_cons_self _ _)

/-! ## Permutations of the atom input order (claim C4)

A permutation of the atom input order of a molecule with `n` atoms is a
permutation of `ℕ` that fixes every index `≥ n`. -/

theorem sigma_lt {σ : Equiv.Perm ℕ} {n : ℕ} (hfix : ∀ k, n ≤ k → σ k = k)
    {i : ℕ} (hi : i < n) : σ i < n := by
  by_contra hc
  push_neg at hc
  have h2 := hfix (σ i) hc
  have h3 := σ.injective h2
  omega

theorem sigma_lt_iff {σ : Equiv.Perm ℕ} {n : ℕ} (hfix : ∀ k, n ≤ k → σ k = k)
    (i : ℕ) : σ i < n ↔ i < n := by
  constructor
  · intro h
    by_contra hc
    push_neg at hc
    rw [hfix i hc] at h
    omega
  · exact fun h => sigma_lt hfix h

theorem sigma_inv_fix {σ : Equiv.Perm ℕ} {n : ℕ}
    (hfix : ∀ k, n ≤ k → σ k = k) : ∀ k, n ≤ k → σ⁻¹ k = k := by
  intro k hk
  conv_lhs => rw [← hfix k hk]
  exact σ.inv_apply_self k

theorem sigma_lt_m {σ : Equiv.Perm ℕ} {n m : ℕ}
    (hfix : ∀ k, n ≤ k → σ k = k) (hnm : n ≤ m) :
    ∀ k, k < m → σ k < m := by
  intro k hk
  by_cases h : k < n
  · exact lt_of_lt_of_le (sigma_lt hfix h) hnm
  · push_neg at h
    rw [hfix k h]
    exact hk

theorem cm_permute (g : Geom) (σ : Equiv.Perm ℕ) (i j : ℕ) :
    cmEntry (permuteGeom g σ) i j = cmEntry g (σ i) (σ j) := by
  unfold cmEntry
  by_cases h : i = j
  · subst h
    rw [if_pos rfl, if_pos rfl]
    rfl
  · rw [if_neg h, if_neg fun hc => h (σ.injective hc)]
    rfl

theorem padded_permute (g : Geom) (σ : Equiv.Perm ℕ)
    (hfix : ∀ k, g.n ≤ k → σ k = k) (m i j : ℕ) :
    padded m (permuteGeom g σ) i j = padded m g (σ i) (σ j) := by
  unfold padded
  rw [show (permuteGeom g σ).n = g.n from rfl]
  by_cases h : i < g.n ∧ j < g.n
  · rw [if_pos h,
      if_pos ⟨(sigma_lt_iff hfix i).mpr h.1, (sigma_lt_iff hfix j).mpr h.2⟩,
      cm_permute]
  · rw [if_neg h, if_neg fun hc =>
      h ⟨(sigma_lt_iff hfix i).mp hc.1, (sigma_lt_iff hfix j).mp hc.2⟩]

theorem sum_range_perm (m : ℕ) (σ : Equiv.Perm ℕ)
    (hm : ∀ k, k < m → σ k < m) (hm' : ∀ k, k < m → σ⁻¹ k < m)
    (f : ℕ → ℝ) :
    ∑ j ∈ Finset.range m, f (σ j) = ∑ j ∈ Finset.range m, f j := by
  refine Finset.sum_nbij' (fun j => σ j) (fun j => σ⁻¹ j) ?_ ?_ ?_ ?_ ?_
  · intro a ha
    exact Finset.mem_range.mpr (hm a (Finset.mem_range.mp ha))
  · intro a ha
    exact Finset.mem_range.mpr (hm' a (Finset.mem_range.mp ha))
  · intro a _
    exact σ.inv_apply_self a
  · intro a _
    exact σ.apply_inv_self a
  · intro a _
    rfl

theorem rowNorm_permute (g : Geom) (σ : Equiv.Perm ℕ) (m : ℕ)
    (hfix : ∀ k, g.n ≤ k → σ k = k) (hnm : g.n ≤ m) (i : ℕ) :
    rowNorm m (padded m (permuteGeom g σ)) i
      = rowNorm m (padded m g) (σ i) := by
  unfold rowNorm
  congr 1
  have hstep : ∀ j, padded m (permuteGeom g σ) i j ^ 2
      = (fun k => padded m g (σ i) k ^ 2) (σ j) := by
    intro j
    rw [padded_permute g σ hfix]
  rw [Finset.sum_congr rfl fun j _ => hstep j]
  exact sum_range_perm m σ (sigma_lt_m hfix hnm)
    (sigma_lt_m (sigma_inv_fix hfix) hnm)
    fun k => padded m g (σ i) k ^ 2

/-- The permutation of `Fin m` induced by an atom-order permutation. -/
def finPerm (σ : Equiv.Perm ℕ) (m : ℕ) (h1 : ∀ k, k < m → σ k < m)
    (h2 : ∀ k, k < m → σ⁻¹ k < m) : Equiv.Perm (Fin m) where
  toFun := fun i => ⟨σ i.1, h1 i.1 i.2⟩
  invFun := fun i => ⟨σ⁻¹ i.1, h2 i.1 i.2⟩
  left_inv := fun i => Fin.ext (σ.inv_apply_self i.1)
  right_inv := fun i => Fin.ext (σ.apply_inv_self i.1)

theorem eigsDesc_permute (g : Geom) (σ : Equiv.Perm ℕ) (m : ℕ)
    (hfix : ∀ k, g.n ≤ k → σ k = k) (hnm : g.n ≤ m) :
    eigsDesc m (permuteGeom g σ) = eigsDesc m g := by
  have h1 := sigma_lt_m hfix hnm
  have h2 := sigma_lt_m (sigma_inv_fix hfix) hnm
  have hmx : toMx m (padded m (permuteGeom g σ))
      = Matrix.reindex (finPerm σ m h1 h2).symm (finPerm σ m h1 h2).symm
        (toMx m (padded m g)) := by
    ext i j
    rw [Matrix.reindex_apply]
    simp only [Equiv.symm_symm]
    show padded m (permuteGeom g σ) i.1 j.1
      = toMx m (padded m g) (finPerm σ m h1 h2 i) (finPerm σ m h1 h2 j)
    rw [padded_permute g σ hfix]
    rfl
  unfold eigsDesc
  rw [hmx, Matrix.charpoly_reindex]

theorem map_range_perm (m : ℕ) (σ : Equiv.Perm ℕ)
    (hσm : ∀ k, k < m → σ k < m) :
    ((List.range m).map σ).Perm (List.range m) := by
  apply List.Subperm.perm_of_length_le
  · refine List.subperm_of_subset ((List.nodup_range m).map σ.injective) ?_
    intro x hx
    obtain ⟨y, hy, rfl⟩ := List.mem_map.mp hx
    exact List.mem_range.mpr (hσm y (List.mem_range.mp hy))
  · rw [List.length_map]

/-- With pairwise-distinct sort keys, sorting the reindexed keys and then
translating back through the permutation yields the sort of the original
keys: the `SC` row order is canonical. -/
theorem map_scOrder (m : ℕ) (σ : Equiv.Perm ℕ) (v : ℕ → ℝ)
    (hσm : ∀ k, k < m → σ k < m)
    (hinj : ∀ i j, i < m → j < m → v i = v j → i = j) :
    (scOrder m fun i => v (σ i)).map σ = scOrder m v := by
  haveI h1r : IsTotal ℕ fun a b : ℕ => v b ≤ v a :=
    ⟨fun a b => le_total (v b) (v a)⟩
  haveI h2r : IsTrans ℕ fun a b : ℕ => v b ≤ v a :=
    ⟨fun a b c hab hbc => le_trans hbc hab⟩
  haveI h1r' : IsTotal ℕ fun a b : ℕ => v (σ b) ≤ v (σ a) :=
    ⟨fun a b => le_total _ _⟩
  haveI h2r' : IsTrans ℕ fun a b : ℕ => v (σ b) ≤ v (σ a) :=
    ⟨fun a b c hab hbc => le_trans hbc hab⟩
  haveI h3r : IsAntisymm ℝ fun x y : ℝ => y ≤ x :=
    ⟨fun a b hab hba => le_antisymm hba hab⟩
  have hperm_l : (scOrder m v).Perm (List.range m) :=
    List.perm_insertionSort _ _
  have hperm_l' : (scOrder m fun i => v (σ i)).Perm (List.range m) :=
    List.perm_insertionSort _ _
  have hmap_perm : ((scOrder m fun i => v (σ i)).map σ).Perm (List.range m) :=
    (hperm_l'.map σ).trans (map_range_perm m σ hσm)
  have hsort_l : List.Sorted (fun a b => v b ≤ v a) (scOrder m v) :=
    List.sorted_insertionSort _ _
  have hsort_l' : List.Sorted (fun a b => v (σ b) ≤ v (σ a))
      (scOrder m fun i => v (σ i)) :=
    List.sorted_insertionSort _ _
  have hval_eq : ((scOrder m fun i => v (σ i)).map σ).map v
      = (scOrder m v).map v := by
    refine @List.eq_of_perm_of_sorted ℝ (fun x y : ℝ => y ≤ x) h3r _ _
      ((hmap_perm.trans hperm_l.symm).map v) ?_ ?_
    · rw [List.map_map]
      exact List.pairwise_map.mpr hsort_l'
    · exact List.pairwise_map.mpr hsort_l
  have hlen_l : (scOrder m v).length = m := by
    unfold scOrder
    rw [List.length_insertionSort, List.length_range]
  have hlen_lm : ((scOrder m fun i => v (σ i)).map σ).length = m := by
    unfold scOrder
    rw [List.length_map, List.length_insertionSort, List.length_range]
  apply List.ext_getElem (by rw [hlen_l, hlen_lm])
  intro k hk1 hk2
  have hvv : v (((scOrder m fun i => v (σ i)).map σ)[k])
      = v ((scOrder m v)[k]) := by
    have h5 := List.getElem_of_eq hval_eq
      (by rw [List.length_map]; exact hk1)
    rw [List.getElem_map, List.getElem_map, List.getElem_map] at h5
    rw [List.getElem_map]
    exact h5
  have hmem1 : ((scOrder m fun i => v (σ i)).map σ)[k] ∈ List.range m :=
    hmap_perm.mem_iff.mp (List.getElem_mem _)
  have hmem2 : (scOrder m v)[k] ∈ List.range m :=
    hperm_l.mem_iff.mp (List.getElem_mem _)
  exact hinj _ _ (List.mem_range.mp hmem1) (List.mem_range.mp hmem2) hvv

theorem lowTri_congr (m : ℕ) (A B : ℕ → ℕ → ℝ)
    (h : ∀ i j, i < m → j ≤ i → A i j = B i j) :
    lowTri m A = lowTri m B := by
  unfold lowTri
  rw [List.flatMap_def, List.flatMap_def]
  congr 1
  apply List.map_congr_left
  intro i hi
  apply List.map_congr_left
  intro j hj
  have hj1 := List.mem_range.mp hj
  exact h i j (List.mem_range.mp hi) (by omega)

theorem scRep_permute (g : Geom) (σ : Equiv.Perm ℕ) (m : ℕ)
    (hfix : ∀ k, g.n ≤ k → σ k = k) (hnm : g.n ≤ m)
    (hinj : ∀ i j, i < m → j < m →
      rowNorm m (padded m g) i = rowNorm m (padded m g) j → i = j) :
    scRep m (permuteGeom g σ) = scRep m g := by
  have h1 := sigma_lt_m hfix hnm
  have hv' : rowNorm m (padded m (permuteGeom g σ))
      = fun i => rowNorm m (padded m g) (σ i) :=
    funext fun i => rowNorm_permute g σ m hfix hnm i
  have hord := map_scOrder m σ (rowNorm m (padded m g)) h1 hinj
  have hlen' : (scOrder m fun i => rowNorm m (padded m g) (σ i)).length = m := by
    unfold scOrder
    rw [List.length_insertionSort, List.length_range]
  have hgd : ∀ k, k < m →
      σ ((scOrder m fun i => rowNorm m (padded m g) (σ i)).getD k 0)
        = (scOrder m (rowNorm m (padded m g))).getD k 0 := by
    intro k hk
    rw [← hord,
      List.getD_eq_getElem _ _ (by rw [hlen']; exact hk),
      List.getD_eq_getElem _ _ (by rw [List.length_map, hlen']; exact hk),
      List.getElem_map]
  unfold scRep
  rw [hv']
  apply lowTri_congr
  intro i j hi hj
  unfold applyOrder
  rw [padded_permute g σ hfix, hgd i hi, hgd j (lt_of_le_of_lt hj hi)]

/-! ## Ties break SC permutation invariance: a concrete counterexample

Four collinear unit charges at x-coordinates `0, 1, -1, 2`: the padded
matrix has tied row norms (`N0 = N1`, `N2 = N3`), the stable sort leaves
both the original and the atom-swapped molecule in input order, and the two
`SC` outputs differ. -/

/-- Four unit charges on a line at `x = 0, 1, -1, 2`. -/
def geomCEX : Geom where
  n := 4
  Z := fun _ => 1
  pos := fun k =>
    if k = 0 then (0, 0, 0)
    else if k = 1 then (1, 0, 0)
    else if k = 2 then (-1, 0, 0)
    else if k = 3 then (2, 0, 0)
    else (0, 0, 0)
  sym := fun _ => "X"

theorem sqrt_eq_of_sq {a b : ℝ} (hb : 0 ≤ b) (h : a = b ^ 2) :
    Real.sqrt a = b := by
  rw [h, Real.sqrt_sq hb]

theorem ceDiag (i : ℕ) : cmEntry geomCEX i i = 0.5 := by
  rw [cmEntry, if_pos rfl]
  show 0.5 * (1 : ℝ) ^ (2.4 : ℝ) = 0.5
  rw [Real.one_rpow, mul_one]

theorem dCE01 : dist geomCEX 0 1 = 1 := by
  have h : dist geomCEX 0 1 = Real.sqrt 1 := by
    unfold dist geomCEX
    norm_num
  rw [h, Real.sqrt_one]

theorem dCE02 : dist geomCEX 0 2 = 1 := by
  have h : dist geomCEX 0 2 = Real.sqrt 1 := by
    unfold dist geomCEX
    norm_num
  rw [h, Real.sqrt_one]

theorem dCE03 : dist geomCEX 0 3 = 2 := by
  have h : dist geomCEX 0 3 = Real.sqrt 4 := by
    unfold dist geomCEX
    norm_num
  rw [h]
  exact sqrt_eq_of_sq (by norm_num) (by norm_num)

theorem dCE12 : dist geomCEX 1 2 = 2 := by
  have h : dist geomCEX 1 2 = Real.sqrt 4 := by
    unfold dist geomCEX
    norm_num
  rw [h]
  exact sqrt_eq_of_sq (by norm_num) (by norm_num)

theorem dCE13 : dist geomCEX 1 3 = 1 := by
  have h : dist geomCEX 1 3 = Real.sqrt 1 := by
    unfold dist geomCEX
    norm_num
  rw [h, Real.sqrt_one]

theorem dCE23 : dist geomCEX 2 3 = 3 := by
  have h : dist geomCEX 2 3 = Real.sqrt 9 := by
    unfold dist geomCEX
    norm_num
  rw [h]
  exact sqrt_eq_of_sq (by norm_num) (by norm_num)

theorem ce01 : cmEntry geomCEX 0 1 = 1 := by
  rw [cmEntry, if_neg (by norm_num), dCE01]
  norm_num [geomCEX]

theorem ce02 : cmEntry geomCEX 0 2 = 1 := by
  rw [cmEntry, if_neg (by norm_num), dCE02]
  norm_num [geomCEX]

theorem ce03 : cmEntry geomCEX 0 3 = 1 / 2 := by
  rw [cmEntry, if_neg (by norm_num), dCE03]
  norm_num [geomCEX]

theorem ce12 : cmEntry geomCEX 1 2 = 1 / 2 := by
  rw [cmEntry, if_neg (by norm_num), dCE12]
  norm_num [geomCEX]

theorem ce13 : cmEntry geomCEX 1 3 = 1 := by
  rw [cmEntry, if_neg (by norm_num), dCE13]
  norm_num [geomCEX]

theorem ce23 : cmEntry geomCEX 2 3 = 1 / 3 := by
  rw [cmEntry, if_neg (by norm_num), dCE23]
  norm_num [geomCEX]

theorem pdCE (i j : ℕ) (hi : i < 4) (hj : j < 4) :
    padded 4 geomCEX i j = cmEntry geomCEX i j := by
  rw [padded, if_pos ⟨hi, hj⟩]

theorem nrmCE0 : rowNorm 4 (padded 4 geomCEX) 0 = Real.sqrt 2.5 := by
  unfold rowNorm
  rw [Finset.sum_range_succ, Finset.sum_range_succ, Finset.sum_range_succ,
    Finset.sum_range_one,
    pdCE 0 0 (by norm_num) (by norm_num), ceDiag,
    pdCE 0 1 (by norm_num) (by norm_num), ce01,
    pdCE 0 2 (by norm_num) (by norm_num), ce02,
    pdCE 0 3 (by norm_num) (by norm_num), ce03]
  norm_num

theorem nrmCE1 : rowNorm 4 (padded 4 geomCEX) 1 = Real.sqrt 2.5 := by
  unfold rowNorm
  rw [Finset.sum_range_succ, Finset.sum_range_succ, Finset.sum_range_succ,
    Finset.sum_range_one,
    pdCE 1 0 (by norm_num) (by norm_num), cmEntry_symm geomCEX 1 0, ce01,
    pdCE 1 1 (by norm_num) (by norm_num), ceDiag,
    pdCE 1 2 (by norm_num) (by norm_num), ce12,
    pdCE 1 3 (by norm_num) (by norm_num), ce13]
  norm_num

theorem nrmCE2 : rowNorm 4 (padded 4 geomCEX) 2 = Real.sqrt (29 / 18) := by
  unfold rowNorm
  rw [Finset.sum_range_succ, Finset.sum_range_succ, Finset.sum_range_succ,
    Finset.sum_range_one,
    pdCE 2 0 (by norm_num) (by norm_num), cmEntry_symm geomCEX 2 0, ce02,
    pdCE 2 1 (by norm_num) (by norm_num), cmEntry_symm geomCEX 2 1, ce12,
    pdCE 2 2 (by norm_num) (by norm_num), ceDiag,
    pdCE 2 3 (by norm_num) (by norm_num), ce23]
  norm_num

theorem nrmCE3 : rowNorm 4 (padded 4 geomCEX) 3 = Real.sqrt (29 / 18) := by
  unfold rowNorm
  rw [Finset.sum_range_succ, Finset.sum_range_succ, Finset.sum_range_succ,
    Finset.sum_range_one,
    pdCE 3 0 (by norm_num) (by norm_num), cmEntry_symm geomCEX 3 0, ce03,
    pdCE 3 1 (by norm_num) (by norm_num), cmEntry_symm geomCEX 3 1, ce13,
    pdCE 3 2 (by norm_num) (by norm_num), cmEntry_symm geomCEX 3 2, ce23,
    pdCE 3 3 (by norm_num) (by norm_num), ceDiag]
  norm_num

theorem nrm_le_CE : Real.sqrt (29 / 18) ≤ Real.sqrt 2.5 :=
  Real.sqrt_le_sqrt (by norm_num)

theorem ordCE : scOrder 4 (rowNorm 4 (padded 4 geomCEX)) = [0, 1, 2, 3] := by
  have h23 : rowNorm 4 (padded 4 geomCEX) 3 ≤ rowNorm 4 (padded 4 geomCEX) 2 := by
    rw [nrmCE2, nrmCE3]
  have h12 : rowNorm 4 (padded 4 geomCEX) 2 ≤ rowNorm 4 (padded 4 geomCEX) 1 := by
    rw [nrmCE2, nrmCE1]
    exact nrm_le_CE
  have h01 : rowNorm 4 (padded 4 geomCEX) 1 ≤ rowNorm 4 (padded 4 geomCEX) 0 := by
    rw [nrmCE0, nrmCE1]
  unfold scOrder
  rw [show List.range 4 = [0, 1, 2, 3] from rfl]
  show List.orderedInsert _ 0 (List.orderedInsert _ 1
    (List.orderedInsert _ 2 (List.orderedInsert _ 3 []))) = [0, 1, 2, 3]
  rw [List.orderedInsert_nil,
    List.orderedInsert_of_le (fun a b => rowNorm 4 (padded 4 geomCEX) b
      ≤ rowNorm 4 (padded 4 geomCEX) a) _ h23,
    List.orderedInsert_of_le (fun a b => rowNorm 4 (padded 4 geomCEX) b
      ≤ rowNorm 4 (padded 4 geomCEX) a) _ h12,
    List.orderedInsert_of_le (fun a b => rowNorm 4 (padded 4 geomCEX) b
      ≤ rowNorm 4 (padded 4 geomCEX) a) _ h01]

theorem hfixCE : ∀ k, geomCEX.n ≤ k → (Equiv.swap (0 : ℕ) 1) k = k := by
  intro k hk
  have hk4 : 4 ≤ k := hk
  exact Equiv.swap_apply_of_ne_of_ne (by omega) (by omega)

theorem ordCE' :
    scOrder 4 (rowNorm 4 (padded 4 (permuteGeom geomCEX (Equiv.swap 0 1))))
      = [0, 1, 2, 3] := by
  have hrw : ∀ i : ℕ,
      rowNorm 4 (padded 4 (permuteGeom geomCEX (Equiv.swap 0 1))) i
        = rowNorm 4 (padded 4 geomCEX) ((Equiv.swap (0:ℕ) 1) i) :=
    rowNorm_permute geomCEX (Equiv.swap 0 1) 4 hfixCE (le_refl 4)
  have hs0 : (Equiv.swap (0:ℕ) 1) 0 = 1 := Equiv.swap_apply_left 0 1
  have hs1 : (Equiv.swap (0:ℕ) 1) 1 = 0 := Equiv.swap_apply_right 0 1
  have hs2 : (Equiv.swap (0:ℕ) 1) 2 = 2 :=
    Equiv.swap_apply_of_ne_of_ne (by omega) (by omega)
  have hs3 : (Equiv.swap (0:ℕ) 1) 3 = 3 :=
    Equiv.swap_apply_of_ne_of_ne (by omega) (by omega)
  have h23 : rowNorm 4 (padded 4 (permuteGeom geomCEX (Equiv.swap 0 1))) 3
      ≤ rowNorm 4 (padded 4 (permuteGeom geomCEX (Equiv.swap 0 1))) 2 := by
    rw [hrw 3, hrw 2, hs3, hs2, nrmCE2, nrmCE3]
  have h12 : rowNorm 4 (padded 4 (permuteGeom geomCEX (Equiv.swap 0 1))) 2
      ≤ rowNorm 4 (padded 4 (permuteGeom geomCEX (Equiv.swap 0 1))) 1 := by
    rw [hrw 2, hrw 1, hs2, hs1, nrmCE2, nrmCE0]
    exact nrm_le_CE
  have h01 : rowNorm 4 (padded 4 (permuteGeom geomCEX (Equiv.swap 0 1))) 1
      ≤ rowNorm 4 (padded 4 (permuteGeom geomCEX (Equiv.swap 0 1))) 0 := by
    rw [hrw 1, hrw 0, hs1, hs0, nrmCE0, nrmCE1]
  unfold scOrder
  rw [show List.range 4 = [0, 1, 2, 3] from rfl]
  show List.orderedInsert _ 0 (List.orderedInsert _ 1
    (List.orderedInsert _ 2 (List.orderedInsert _ 3 []))) = [0, 1, 2, 3]
  rw [List.orderedInsert_nil,
    List.orderedInsert_of_le (fun a b =>
      rowNorm 4 (padded 4 (permuteGeom geomCEX (Equiv.swap 0 1))) b
        ≤ rowNorm 4 (padded 4 (permuteGeom geomCEX (Equiv.swap 0 1))) a) _ h23,
    List.orderedInsert_of_le (fun a b =>
      rowNorm 4 (padded 4 (permuteGeom geomCEX (Equiv.swap 0 1))) b
        ≤ rowNorm 4 (padded 4 (permuteGeom geomCEX (Equiv.swap 0 1))) a) _ h12,
    List.orderedInsert_of_le (fun a b =>
      rowNorm 4 (padded 4 (permuteGeom geomCEX (Equiv.swap 0 1))) b
        ≤ rowNorm 4 (padded 4 (permuteGeom geomCEX (Equiv.swap 0 1))) a) _ h01]

theorem scCEX_3 : (scRep 4 geomCEX).getD 3 0 = 1 := by
  unfold scRep
  rw [ordCE]
  show padded 4 geomCEX 2 0 = 1
  rw [pdCE 2 0 (by norm_num) (by norm_num), cmEntry_symm geomCEX 2 0, ce02]

theorem scCEX'_3 :
    (scRep 4 (permuteGeom geomCEX (Equiv.swap 0 1))).getD 3 0 = 1 / 2 := by
  unfold scRep
  rw [ordCE']
  show padded 4 (permuteGeom geomCEX (Equiv.swap 0 1)) 2 0 = 1 / 2
  rw [padded_permute geomCEX (Equiv.swap 0 1) hfixCE,
    Equiv.swap_apply_left,
    show (Equiv.swap (0:ℕ) 1) 2 = 2 from
      Equiv.swap_apply_of_ne_of_ne (by omega) (by omega),
    pdCE 2 1 (by norm_num) (by norm_num), cmEntry_symm geomCEX 2 1, ce12]

/-- Claim C4 fails as stated for the `SC` variant: on four collinear unit
charges, swapping the first two atoms changes the `SC` output (the padded
matrix has tied row norms, and the stable tie-break is input-order
dependent). -/
theorem C4_counterexample :
    represent .SC 4 1 (fun _ _ => 0) (permuteGeom geomCEX (Equiv.swap 0 1))
      ≠ represent .SC 4 1 (fun _ _ => 0) geomCEX := by
  intro h
  have h3 := congrArg (fun L => L.getD 3 0) h
  simp only at h3
  have h3' : (scRep 4 (permuteGeom geomCEX (Equiv.swap 0 1))).getD 3 0
      = (scRep 4 geomCEX).getD 3 0 := h3
  rw [scCEX_3, scCEX'_3] at h3'
  norm_num at h3'

/-- Claim C4, amended: for every molecule, every `max_n_atoms ≥ n` and every
permutation of the atom input order, the `E` variant is invariant, and the
`SC` variant is invariant provided the row L2 norms of the padded Coulomb
matrix are pairwise distinct (on ties, `SC`'s stable sort preserves input
order and is therefore order sensitive). -/
theorem C4_invariance_amended (g : Geom) (m nPerm : ℕ)
    (noise : ℕ → ℕ → ℝ) (σ : Equiv.Perm ℕ)
    (hnm : g.n ≤ m) (hfix : ∀ k, g.n ≤ k → σ k = k) :
    represent .E m nPerm noise (permuteGeom g σ)
      = represent .E m nPerm noise g ∧
    ((∀ i j, i < m → j < m →
        rowNorm m (padded m g) i = rowNorm m (padded m g) j → i = j) →
      represent .SC m nPerm noise (permuteGeom g σ)
        = represent .SC m nPerm noise g) :=
  ⟨eigsDesc_permute g σ m hfix hnm,
    fun hinj => scRep_permute g σ m hfix hnm hinj⟩

/-- A single atom at the origin. -/
def g1 : Geom := ⟨1, fun _ => 1, fun _ => (0, 0, 0), fun _ => "H"⟩

theorem C4_witness :
    represent .E 1 1 (fun _ _ => 0) (permuteGeom g1 (Equiv.refl ℕ))
      = represent .E 1 1 (fun _ _ => 0) g1 ∧
    represent .SC 1 1 (fun _ _ => 0) (permuteGeom g1 (Equiv.refl ℕ))
      = represent .SC 1 1 (fun _ _ => 0) g1 := by
  have h := C4_invariance_amended g1 1 1 (fun _ _ => 0) (Equiv.refl ℕ)
    (le_refl 1) fun k _ => rfl
  exact ⟨h.1, h.2 fun i j hi hj _ => by omega⟩

end ChemML
